import Mathlib

/-!
Verification development for the `queryf` Go package: a debugging helper
that replaces the positional placeholders `$1`, `$2`, ... of a SQL query
template by textual renderings of the corresponding arguments.

The package has two substitution entry points, `Format` (queryf.go, built
on the `Argument` renderer) and `Print` (an older iteration in the same
package, built on a package-level `format` function); both are embedded
here.

Modelling conventions for the shallow embedding:

- Go runtime values reaching the package through `any` are modelled by the
  mutually inductive type `GoVal`.  Go strings are modelled as `List Char`
  inside the rendering core and as `String` at the public API.
- `time.Time` values are represented by their two textual renderings (the
  RFC3339 form produced by `t.Format(time.RFC3339)` and the default
  `fmt "%v"` form produced by `t.String()`), because the `time` library's
  formatting is external to this package.
- The float categories (`float32`/`float64`) and the `pq` array wrapper
  types (`pq.StringArray`, `pq.GenericArray`, ...) are outside the modelled
  fragment: floating-point formatting and the external `lib/pq`
  serialization are not embedded.  The corresponding detection guards
  (`isFloat`, `isPqArray`, `isGenericArray`) are therefore constantly
  false on `GoVal`.
- A nil slice and an empty slice (likewise a nil map and an empty map) are
  identified: the package never distinguishes them (`isNull` only treats
  the nil interface and nil typed pointers as null, and rendering only
  uses the length / the key set).
- A Go panic is modelled as `Option.none`; total Go code is embedded as a
  total Lean function.
- The machine address printed by `fmt "%v"` for a pointer whose referent
  is again a pointer is not representable in a shallow embedding; `goV`
  renders that (claim-irrelevant) case as a fixed placeholder token.
-/

/-- A word character of Go's regexp `\b` boundary: `[0-9A-Za-z_]`. -/
def wordChar (c : Char) : Bool :=
  c.isAlphanum || c == '_'

/-- The single-quote escaping of `Argument.formatString`:
`strings.ReplaceAll(s, "'", "''")`. -/
def escQuote : List Char → List Char
  | [] => []
  | c :: cs => if c == '\'' then '\'' :: '\'' :: escQuote cs else c :: escQuote cs

/-- The double-quote escaping used by `formatMap` / `formatStruct`:
`strings.ReplaceAll(inner, "\"", "\\\"")`. -/
def escDQuote : List Char → List Char
  | [] => []
  | c :: cs => if c == '"' then '\\' :: '"' :: escDQuote cs else c :: escDQuote cs

/-- `strings.Join(parts, sep)`. -/
def joinSep (sep : List Char) : List (List Char) → List Char
  | [] => []
  | [x] => x
  | x :: y :: t => x ++ sep ++ joinSep sep (y :: t)

/-- `strings.Join(parts, ",")`. -/
def joinComma (parts : List (List Char)) : List Char := joinSep [','] parts

/-- Space-joining, as in `fmt`'s rendering of slices and structs. -/
def joinSpace (parts : List (List Char)) : List Char := joinSep [' '] parts

/-- The decimal digit characters (digits of `fmt`'s `%d`). -/
def digitChar : Nat → Char
  | 0 => '0' | 1 => '1' | 2 => '2' | 3 => '3' | 4 => '4'
  | 5 => '5' | 6 => '6' | 7 => '7' | 8 => '8' | _ => '9'

/-- Fuel-driven decimal digit list of a natural number (most significant
first); `natDigits` supplies enough fuel. -/
def natDigitsF : Nat → Nat → List Char
  | 0, n => [digitChar (n % 10)]
  | f + 1, n => if n < 10 then [digitChar n] else natDigitsF f (n / 10) ++ [digitChar (n % 10)]

/-- The decimal representation of a natural number, as printed by `fmt`'s
`%d`/`%v`. -/
def natDigits (n : Nat) : List Char := natDigitsF n n

/-- Numeric value of a digit character. -/
def digitVal (c : Char) : Nat := c.toNat - 48

/-- Numeric value of a decimal digit string (left fold). -/
def digitsVal (ds : List Char) : Nat := ds.foldl (fun a c => a * 10 + digitVal c) 0

/-- The decimal representation of an integer, as printed by `fmt`'s
`%d`/`%v` on Go's signed integer types. -/
def intRepr (n : Int) : List Char :=
  if n < 0 then '-' :: natDigits (-n).toNat else natDigits n.toNat

/-- `true`/`false`, as printed by `Argument.formatBoolean` and `fmt "%v"`. -/
def boolStr (b : Bool) : List Char :=
  if b then "true".toList else "false".toList

/-- Lowercase hexadecimal digit. -/
def hexDigit (n : Nat) : Char :=
  if n < 10 then digitChar n
  else if n == 10 then 'a' else if n == 11 then 'b' else if n == 12 then 'c'
  else if n == 13 then 'd' else if n == 14 then 'e' else 'f'

/-- Two lowercase hex digits of one byte, as `fmt`'s `%x` prints each byte
of a `[]byte`. -/
def byteHex (b : Nat) : List Char := [hexDigit (b / 16 % 16), hexDigit (b % 16)]

/-- `fmt`'s `%x` of a byte slice: the bytes' hex digits, concatenated. -/
def bytesHex : List Nat → List Char
  | [] => []
  | b :: t => byteHex b ++ bytesHex t

mutual
/-- A Go runtime value as the package sees one through `any`.

`str`, `intv`, `boolv`, `bytes` are the scalar/bytes categories; `ptrNil`
and `ptrTo` are a typed pointer (`ptrNil` is a non-nil-typed pointer
holding no value); `timev` is a `time.Time` carried as its two textual
renderings; `slice` is any other Go slice, `elemAny = true` exactly when
its dynamic type is `[]any` (`Print`'s type assertion `arg.([]any)`
succeeds only then); `mapv` is a map as a key/value pair list in iteration
order; `strct` is a struct as a field list in declaration order; the
`null*` constructors are the `sql.Null*`/`pq.NullTime` wrapper structs
(validity flag plus inner value). -/
inductive GoVal : Type where
  | nilv
  | intv (n : Int)
  | str (s : List Char)
  | boolv (b : Bool)
  | ptrNil
  | ptrTo (v : GoVal)
  | timev (rfc3339 : List Char) (goStr : List Char)
  | bytes (bs : List Nat)
  | slice (elemAny : Bool) (xs : GoVals)
  | mapv (ps : GoPairs)
  | strct (fs : GoFields)
  | nullBool (valid : Bool) (b : Bool)
  | nullByte (valid : Bool) (n : Nat)
  | nullInt16 (valid : Bool) (n : Int)
  | nullInt32 (valid : Bool) (n : Int)
  | nullInt64 (valid : Bool) (n : Int)
  | nullString (valid : Bool) (s : List Char)
  | nullTime (valid : Bool) (rfc3339 : List Char) (goStr : List Char)
  | pqNullTime (valid : Bool) (rfc3339 : List Char) (goStr : List Char)

/-- A list of Go values (a slice's elements). -/
inductive GoVals : Type where
  | nil
  | cons (v : GoVal) (t : GoVals)

/-- A map's key/value pairs in iteration order. -/
inductive GoPairs : Type where
  | nil
  | cons (k : GoVal) (v : GoVal) (t : GoPairs)

/-- A struct's fields in declaration order: name, whether the field is
exported (`field.PkgPath == ""`), the `json` tag when
`field.Tag.Lookup("json")` finds one, and the field's value. -/
inductive GoFields : Type where
  | nil
  | cons (name : List Char) (exported : Bool) (tag : Option (List Char)) (v : GoVal) (t : GoFields)
end

/-- The `reflect.Kind`s distinguished by the package's guards. -/
inductive RKind : Type where
  | invalid | kptr | kstring | kbool | kslice | kmap | kstruct | kint
deriving BEq, DecidableEq

/-- `reflect.ValueOf(arg).Kind()` (`Invalid` for the nil interface; a
`[]byte` and the `sql.Null*` structs report `Slice` and `Struct` like any
other slice or struct). -/
def rkind : GoVal → RKind
  | .nilv => .invalid
  | .intv _ => .kint
  | .str _ => .kstring
  | .boolv _ => .kbool
  | .ptrNil => .kptr
  | .ptrTo _ => .kptr
  | .timev _ _ => .kstruct
  | .bytes _ => .kslice
  | .slice _ _ => .kslice
  | .mapv _ => .kmap
  | .strct _ => .kstruct
  | .nullBool _ _ => .kstruct
  | .nullByte _ _ => .kstruct
  | .nullInt16 _ _ => .kstruct
  | .nullInt32 _ _ => .kstruct
  | .nullInt64 _ _ => .kstruct
  | .nullString _ _ => .kstruct
  | .nullTime _ _ _ => .kstruct
  | .pqNullTime _ _ _ => .kstruct

/-- `arg == nil`: the interface itself is nil. -/
def isNilInterface : GoVal → Bool
  | .nilv => true
  | _ => false

/-- `reflect.Value.IsNil()` on the pointer kinds of the model. -/
def rIsNil : GoVal → Bool
  | .ptrNil => true
  | _ => false

/-- Decimal renderings of a byte slice's bytes (for `%v` of `[]byte`). -/
def bytesDec : List Nat → List (List Char)
  | [] => []
  | b :: t => natDigits b :: bytesDec t

mutual
/-- `fmt.Sprintf("%v", v)`: Go's default textual rendering, used by the
package for map keys, for the final fallback branch of both renderers and
(through `reflect.Value`) for `Print`'s pointer branch.  The `ptrTo` case
would print a machine address, which a shallow embedding cannot represent;
it is rendered as a fixed placeholder and is used by no claim. -/
def goV : GoVal → List Char
  | .nilv => "<nil>".toList
  | .intv n => intRepr n
  | .str s => s
  | .boolv b => boolStr b
  | .ptrNil => "<nil>".toList
  | .ptrTo _ => "0x?".toList
  | .timev _ g => g
  | .bytes bs => '[' :: joinSpace (bytesDec bs) ++ [']']
  | .slice _ xs => '[' :: joinSpace (goVList xs) ++ [']']
  | .mapv ps => "map[".toList ++ joinSpace (goVPairs ps) ++ [']']
  | .strct fs => '{' :: joinSpace (goVFields fs) ++ ['}']
  | .nullBool valid b => '{' :: boolStr b ++ ' ' :: boolStr valid ++ ['}']
  | .nullByte valid n => '{' :: natDigits n ++ ' ' :: boolStr valid ++ ['}']
  | .nullInt16 valid n => '{' :: intRepr n ++ ' ' :: boolStr valid ++ ['}']
  | .nullInt32 valid n => '{' :: intRepr n ++ ' ' :: boolStr valid ++ ['}']
  | .nullInt64 valid n => '{' :: intRepr n ++ ' ' :: boolStr valid ++ ['}']
  | .nullString valid s => '{' :: s ++ ' ' :: boolStr valid ++ ['}']
  | .nullTime valid _ g => '{' :: g ++ ' ' :: boolStr valid ++ ['}']
  | .pqNullTime valid _ g => '{' :: g ++ ' ' :: boolStr valid ++ ['}']

/-- `%v` of each element of a slice. -/
def goVList : GoVals → List (List Char)
  | .nil => []
  | .cons v t => goV v :: goVList t

/-- `%v` of each `key:value` entry of a map. -/
def goVPairs : GoPairs → List (List Char)
  | .nil => []
  | .cons k v t => (goV k ++ ':' :: goV v) :: goVPairs t

/-- `%v` of each field value of a struct (all fields). -/
def goVFields : GoFields → List (List Char)
  | .nil => []
  | .cons _ _ _ v t => goV v :: goVFields t
end

/-- The classification tags of `queryf.ParameterType`. -/
inductive ParameterType : Type where
  | String | Integer | Float | Boolean | Pointer | Null | Time | Slice
  | GenericArray | PqArray | SqlNullType | Bytes | Map | Struct
deriving BEq, DecidableEq

namespace Argument

/-- `Argument.isNull`: nil interface, or a typed pointer that is nil. -/
def isNull (a : GoVal) : Bool :=
  isNilInterface a || (rkind a == .kptr && rIsNil a)

/-- `Argument.isPtr`: pointer kind and not nil. -/
def isPtr (a : GoVal) : Bool :=
  rkind a == .kptr && !rIsNil a

/-- `Argument.isTime`: the type assertion `arg.(time.Time)` succeeds. -/
def isTime : GoVal → Bool
  | .timev _ _ => true
  | _ => false

/-- `Argument.isString`: reflected kind is `String`. -/
def isString (a : GoVal) : Bool := rkind a == .kstring

/-- `Argument.isBoolean`: reflected kind is `Bool`. -/
def isBoolean (a : GoVal) : Bool := rkind a == .kbool

/-- `Argument.isFloat`: reflected kind is `Float32`/`Float64`.  The float
kinds are outside the modelled fragment, so this is constantly false. -/
def isFloat (_ : GoVal) : Bool := false

/-- `Argument.isBytes`: the type assertion `arg.([]byte)` succeeds. -/
def isBytes : GoVal → Bool
  | .bytes _ => true
  | _ => false

/-- `Argument.isPqArray`: one of the `pq` array wrapper types.  Those
types are outside the modelled fragment, so this is constantly false. -/
def isPqArray (_ : GoVal) : Bool := false

/-- `Argument.isGenericArray`: the type assertion `arg.(pq.GenericArray)`
succeeds.  Outside the modelled fragment, so constantly false. -/
def isGenericArray (_ : GoVal) : Bool := false

/-- `Argument.isSlice`: slice kind, but neither `[]byte` nor a `pq` array
wrapper. -/
def isSlice (a : GoVal) : Bool :=
  rkind a == .kslice && !isBytes a && !isPqArray a

/-- `Argument.isMap`: reflected kind is `Map`. -/
def isMap (a : GoVal) : Bool := rkind a == .kmap

/-- `Argument.isSqlNullType`: the type switch over `sql.NullBool`,
`sql.NullByte`, `sql.NullFloat64`, `sql.NullInt16`, `sql.NullInt32`,
`sql.NullInt64`, `sql.NullString`, `sql.NullTime`, `pq.NullTime` matches
(`sql.NullFloat64` carries a float and is outside the modelled fragment). -/
def isSqlNullType : GoVal → Bool
  | .nullBool _ _ => true
  | .nullByte _ _ => true
  | .nullInt16 _ _ => true
  | .nullInt32 _ _ => true
  | .nullInt64 _ _ => true
  | .nullString _ _ => true
  | .nullTime _ _ _ => true
  | .pqNullTime _ _ _ => true
  | _ => false

/-- `Argument.isStruct`: struct kind, but neither a `time.Time` nor one of
the `sql.Null*` wrappers. -/
def isStruct (a : GoVal) : Bool :=
  rkind a == .kstruct && !isTime a && !isSqlNullType a

/-- `Argument.GetType`: the guard chain of queryf.go, first match wins,
defaulting to `Integer`. -/
def GetType (a : GoVal) : ParameterType :=
  if isNull a then .Null
  else if isPtr a then .Pointer
  else if isTime a then .Time
  else if isString a then .String
  else if isSlice a then .Slice
  else if isBytes a then .Bytes
  else if isPqArray a then .PqArray
  else if isGenericArray a then .GenericArray
  else if isSqlNullType a then .SqlNullType
  else if isBoolean a then .Boolean
  else if isFloat a then .Float
  else if isMap a then .Map
  else if isStruct a then .Struct
  else .Integer

/-- `Argument.formatNull`. -/
def formatNull : List Char := "NULL".toList

/-- `Argument.formatTime`: `fmt.Sprintf("'%s'", t.Format(time.RFC3339))`. -/
def formatTime (rfc : List Char) : List Char := '\'' :: rfc ++ ['\'']

/-- `Argument.formatString`: single-quote the string after doubling every
embedded single quote. -/
def formatString (s : List Char) : List Char := '\'' :: escQuote s ++ ['\'']

/-- `Argument.formatBytes`: `fmt.Sprintf("'\\x%x'", b)`. -/
def formatBytes (bs : List Nat) : List Char :=
  '\'' :: '\\' :: 'x' :: bytesHex bs ++ ['\'']

/-- `Argument.formatBoolean`. -/
def formatBoolean (b : Bool) : List Char := boolStr b

/-- The field name used by `Argument.formatStruct`: the first
comma-separated part of the `json` tag when that part is neither empty nor
`"-"`, the declaration name otherwise (a `json:"-"` tag therefore does not
omit the field; it merely leaves the name unchanged). -/
def fieldName (nm : List Char) : Option (List Char) → List Char
  | none => nm
  | some tag =>
    let p := tag.takeWhile (fun c => c != ',')
    if p != [] && p != ['-'] then p else nm

/-- The quoted-value special case shared by `Argument.formatMap` and
`Argument.formatStruct`: when the rendered value starts and ends with a
single quote, the quotes are stripped and the body is re-wrapped in double
quotes with embedded double quotes escaped.  (The slice `v[1:len(v)-1]` is
modelled totally; `Argument.format` never returns a one-character quoted
string, so the difference is unreachable.) -/
def jsonPair (k v : List Char) : List Char :=
  if v.head? == some '\'' && v.getLast? == some '\'' then
    '"' :: k ++ '"' :: ':' :: '"' :: escDQuote ((v.drop 1).dropLast) ++ ['"']
  else
    '"' :: k ++ '"' :: ':' :: v

mutual
/-- `Argument.format`: the renderer behind `Format`.  The source
dispatches through the guard chain `isNull`/`isPtr`/`isTime`/`isString`/
`isBytes`/`isSlice`/`isPqArray`/`isGenericArray`/`isSqlNullType`/
`isBoolean`/`isMap`/`isStruct`/`isFloat` with a `fmt.Sprintf("%v", arg)`
fallback; the guards are pairwise disjoint on the modelled fragment, so
the chain is realized as a match on the category constructors, each branch
embedding the source's branch for the guard it names. -/
def format : GoVal → List Char
  | .nilv => formatNull
  | .ptrNil => formatNull
  | .ptrTo v => format v
  | .timev rfc _ => formatTime rfc
  | .str s => formatString s
  | .bytes bs => formatBytes bs
  | .slice _ xs => '\'' :: '{' :: joinComma (formatElems xs) ++ ['}', '\'']
  | .nullBool valid b => if valid then formatBoolean b else formatNull
  | .nullByte valid n => if valid then natDigits n else formatNull
  | .nullInt16 valid n => if valid then intRepr n else formatNull
  | .nullInt32 valid n => if valid then intRepr n else formatNull
  | .nullInt64 valid n => if valid then intRepr n else formatNull
  | .nullString valid s => if valid then formatString s else formatNull
  | .nullTime valid rfc _ => if valid then formatTime rfc else formatNull
  | .pqNullTime valid rfc _ => if valid then formatTime rfc else formatNull
  | .boolv b => formatBoolean b
  | .mapv ps => '\'' :: '{' :: joinComma (mapPairs ps) ++ ['}', '\'']
  | .strct fs => '\'' :: '{' :: joinComma (structPairs fs) ++ ['}', '\'']
  | .intv n => intRepr n

/-- `Argument.formatSlice`'s element loop: each element re-enters the full
renderer through `NewArgument(...).format()`. -/
def formatElems : GoVals → List (List Char)
  | .nil => []
  | .cons v t => format v :: formatElems t

/-- `Argument.formatMap`'s pair loop: the key through `fmt "%v"`, the
value through the full renderer and the quoted-value special case. -/
def mapPairs : GoPairs → List (List Char)
  | .nil => []
  | .cons k v t => jsonPair (goV k) (format v) :: mapPairs t

/-- `Argument.formatStruct`'s field loop: unexported fields
(`field.PkgPath != ""`) are skipped; the pair name comes from `fieldName`;
the value goes through the full renderer and the quoted-value special
case. -/
def structPairs : GoFields → List (List Char)
  | .nil => []
  | .cons nm ex tg v t =>
    if ex then jsonPair (fieldName nm tg) (format v) :: structPairs t
    else structPairs t
end

end Argument

/-- The `\b` assertion after the digits of the token `\$index\b`: matches
at end of input or before a non-word character. -/
def matchEnd : List Char → Bool
  | [] => true
  | c :: _ => !wordChar c

/-- Whether `ds` is an initial run of `cs`. -/
def startsList : List Char → List Char → Bool
  | [], _ => true
  | _ :: _, [] => false
  | d :: ds, c :: cs => d == c && startsList ds cs

/-- Fuel-driven left-to-right scan of `regexp.MustCompile("\\$" ++ ds ++
"\\b").ReplaceAll(s, rep)` for a digit token `ds`: at each position, a
match of `$` followed by `ds` whose following character satisfies the
word-boundary assertion is replaced by `rep` and the scan resumes after
the matched text; everything else is copied.  One unit of fuel is spent
per step, so fuel `s.length` (supplied by `replaceTok`) never runs out. -/
def replaceTokF (ds rep : List Char) : Nat → List Char → List Char
  | _, [] => []
  | 0, s => s
  | f + 1, c :: cs =>
    if c == '$' && startsList ds cs && matchEnd (cs.drop ds.length) then
      rep ++ replaceTokF ds rep f (cs.drop ds.length)
    else
      c :: replaceTokF ds rep f cs

/-- The scan of the token `\$ds\b` over `s`, every match replaced by the
already-expanded text `rep`. -/
def replaceTok (ds rep s : List Char) : List Char :=
  replaceTokF ds rep s.length s

/-- Fuel-driven model of `Regexp.expand` applied to the replacement text:
inside the replacement, `$$` is a literal `$`; `$name`/`${name}` (a name
being a maximal run of letters, digits and underscores, ASCII here) is a
capture-group reference, and a `$` starting no well-formed reference is
literal.  The compiled patterns `\$k\b` have no capture groups, so the
reference `$0`/`${0}` expands to the matched token text and every other
reference (out-of-range index, leading-zero index, overlong index, or
unknown name) expands to the empty string.  One unit of fuel is spent per
consumed character, so fuel `rep.length` (supplied by `expandRepl`) never
runs out. -/
def expandReplF (matched : List Char) : Nat → List Char → List Char
  | _, [] => []
  | 0, s => s
  | f + 1, c :: rest =>
    if c != '$' then c :: expandReplF matched f rest
    else
      match rest with
      | [] => ['$']
      | d :: rest' =>
        if d == '$' then '$' :: expandReplF matched f rest'
        else if d == '{' then
          let nm := rest'.takeWhile wordChar
          if nm.isEmpty || !((rest'.drop nm.length).head? == some '}') then
            '$' :: expandReplF matched f rest
          else
            (if nm == ['0'] then matched else [])
              ++ expandReplF matched f ((rest'.drop nm.length).drop 1)
        else
          let nm := rest.takeWhile wordChar
          if nm.isEmpty then '$' :: expandReplF matched f rest
          else
            (if nm == ['0'] then matched else [])
              ++ expandReplF matched f (rest.drop nm.length)

/-- `Regexp.expand` of the replacement text for one match (see
`expandReplF`). -/
def expandRepl (matched rep : List Char) : List Char :=
  expandReplF matched rep.length rep

/-- `re.ReplaceAll(s, rep)` for the pattern `\$ds\b`: every match is
replaced by the `$`-expanded replacement text.  The pattern is a literal
token plus a zero-width assertion, so the matched text — and with it the
expansion — is the same `$ds` at every match. -/
def ReplaceAll (ds rep s : List Char) : List Char :=
  replaceTok ds (expandRepl ('$' :: ds) rep) s

/-- The loop of `Format`: for each argument at 1-based position `idx`,
replace every occurrence of `\$idx\b` in the current (already partially
substituted) query bytes by the argument's rendered text. -/
def substLoop : List GoVal → Nat → List Char → List Char
  | [], _, s => s
  | a :: rest, idx, s => substLoop rest (idx + 1) (ReplaceAll (natDigits idx) (Argument.format a) s)

/-- `queryf.Format`: substitute the rendered arguments into the query. -/
def Format (query : String) (args : List GoVal) : String :=
  String.mk (substLoop args 1 query.toList)

mutual
/-- The package-level `format` of the `Print` iteration.  `none` models a
panic.  Guard chain of the source: `isNull` (nil interface or nil
pointer), `isPtr` (any pointer kind: the source passes the dereferenced
`reflect.Value` back to `format`, where no guard matches and the
`fmt.Sprintf("%v", v)` fallback prints the referent's default rendering),
`isTime` (recurses on the RFC3339 string, landing in the string branch),
`isString` (single quotes, no escaping), `isSlice` (any slice kind: the
type assertion `arg.([]any)` panics unless the dynamic type is `[]any` —
in particular on `[]byte` and on `[]int`), `isBoolean`, and the `%v`
fallback for everything else. -/
def format : GoVal → Option (List Char)
  | .nilv => some "NULL".toList
  | .ptrNil => some "NULL".toList
  | .ptrTo v => some (goV v)
  | .timev rfc _ => some ('\'' :: rfc ++ ['\''])
  | .str s => some ('\'' :: s ++ ['\''])
  | .bytes _ => none
  | .slice elemAny xs =>
    if elemAny then
      match sliceElems xs with
      | some es => some ('{' :: joinComma es ++ ['}'])
      | none => none
    else none
  | .boolv b => some (boolStr b)
  | v => some (goV v)

/-- `sliceToString`'s element loop: each element of the `[]any` goes back
through `format`; an element's panic propagates. -/
def sliceElems : GoVals → Option (List (List Char))
  | .nil => some []
  | .cons v t =>
    match format v, sliceElems t with
    | some s, some r => some (s :: r)
    | _, _ => none
end

/-- The loop of `Print`, sequencing the possible panic of each argument's
rendering. -/
def substLoopP : List GoVal → Nat → List Char → Option (List Char)
  | [], _, s => some s
  | a :: rest, idx, s =>
    match format a with
    | none => none
    | some rep => substLoopP rest (idx + 1) (ReplaceAll (natDigits idx) rep s)

/-- `queryf.Print`: the older substitution entry point; `none` models a
panic. -/
def Print (query : String) (args : List GoVal) : Option String :=
  (substLoopP args 1 query.toList).map String.mk

mutual
/-- Structural size of a value: one unit per renderer-visited node.  Only
the positions `Argument.format` recurses into (the referent of a pointer,
a slice's elements, a map's values, a struct's field values) count. -/
def gsize : GoVal → Nat :=
  fun v => match v with
  | .ptrTo w => gsize w + 1
  | .slice _ xs => gsizeL xs + 1
  | .mapv ps => gsizeP ps + 1
  | .strct fs => gsizeF fs + 1
  | _ => 1

/-- Structural size of a slice's elements. -/
def gsizeL : GoVals → Nat :=
  fun xs => match xs with
  | .nil => 1
  | .cons v t => gsize v + gsizeL t + 1

/-- Structural size of a map's values. -/
def gsizeP : GoPairs → Nat :=
  fun ps => match ps with
  | .nil => 1
  | .cons _ v t => gsize v + gsizeP t + 1

/-- Structural size of a struct's field values. -/
def gsizeF : GoFields → Nat :=
  fun fs => match fs with
  | .nil => 1
  | .cons _ _ _ v t => gsize v + gsizeF t + 1
end

mutual
/-- `Argument.format` with an explicit recursion-depth guard, the guard
the source does not have: every recursive self-call of the renderer
(pointer referent, slice element, map value, struct field) spends one unit
of fuel, and exhausted fuel is `none`.  `formatFuel_complete` shows fuel
`gsize v` always suffices, which is the termination argument for the
unguarded renderer on finite acyclic values. -/
def formatFuel : Nat → GoVal → Option (List Char)
  | 0, _ => none
  | f + 1, v =>
    match v with
    | .ptrTo w => formatFuel f w
    | .slice _ xs =>
      match formatFuelL f xs with
      | some es => some ('\'' :: '{' :: joinComma es ++ ['}', '\''])
      | none => none
    | .mapv ps =>
      match formatFuelP f ps with
      | some es => some ('\'' :: '{' :: joinComma es ++ ['}', '\''])
      | none => none
    | .strct fs =>
      match formatFuelF f fs with
      | some es => some ('\'' :: '{' :: joinComma es ++ ['}', '\''])
      | none => none
    | w => some (Argument.format w)

/-- Depth-guarded `formatElems`. -/
def formatFuelL : Nat → GoVals → Option (List (List Char))
  | 0, _ => none
  | _ + 1, .nil => some []
  | f + 1, .cons v t =>
    match formatFuel f v, formatFuelL f t with
    | some s, some r => some (s :: r)
    | _, _ => none

/-- Depth-guarded `mapPairs`. -/
def formatFuelP : Nat → GoPairs → Option (List (List Char))
  | 0, _ => none
  | _ + 1, .nil => some []
  | f + 1, .cons k v t =>
    match formatFuel f v, formatFuelP f t with
    | some s, some r => some (Argument.jsonPair (goV k) s :: r)
    | _, _ => none

/-- Depth-guarded `structPairs`. -/
def formatFuelF : Nat → GoFields → Option (List (List Char))
  | 0, _ => none
  | _ + 1, .nil => some []
  | f + 1, .cons nm ex tg v t =>
    if ex then
      match formatFuel f v, formatFuelF f t with
      | some s, some r => some (Argument.jsonPair (Argument.fieldName nm tg) s :: r)
      | _, _ => none
    else formatFuelF f t
end

/-- No character of the string is a dollar sign. -/
def noDollar (s : List Char) : Bool := s.all (fun c => c != '$')

/-- A template as the claim reads it: an alternation of literal text and
placeholder tokens. -/
inductive Seg : Type where
  | lit (s : List Char)
  | hole (k : Nat)

/-- The template string of a segment list: a hole `k` is the token
`$` followed by the decimal digits of `k`. -/
def tmplStr : List Seg → List Char
  | [] => []
  | .lit s :: t => s ++ tmplStr t
  | .hole k :: t => '$' :: (natDigits k ++ tmplStr t)

/-- The output the claim describes: every occurrence of placeholder `k`
replaced by `reps k`, all literal text unchanged. -/
def outStr (reps : Nat → List Char) : List Seg → List Char
  | [] => []
  | .lit s :: t => s ++ outStr reps t
  | .hole k :: t => reps k ++ outStr reps t

/-- The partially substituted string after the loop has processed the
argument indices below `j`: holes with smaller index already carry their
replacement text, the remaining holes still read as tokens. -/
def midStr (reps : Nat → List Char) (j : Nat) : List Seg → List Char
  | [] => []
  | .lit s :: t => s ++ midStr reps j t
  | .hole k :: t => (if k < j then reps k else '$' :: natDigits k) ++ midStr reps j t

/-- What may follow a hole so that the `\b` boundary of its token holds
and stays intact throughout the loop: end of template, or literal text
opening with a non-word character (which, literals being dollar-free, is
also not the `$` of a further token). -/
def tailOk : List Seg → Bool
  | [] => true
  | .lit [] :: _ => false
  | .lit (c :: _) :: _ => !wordChar c
  | .hole _ :: _ => false

/-- Well-formedness of a template's segments for `n` arguments: literal
text is dollar-free (it contains no token of its own), every hole's index
is one of the 1-based argument positions, and every hole is followed by
`tailOk` text. -/
def segsOk (n : Nat) : List Seg → Bool
  | [] => true
  | .lit s :: t => noDollar s && segsOk n t
  | .hole k :: t => decide (1 ≤ k) && decide (k ≤ n) && tailOk t && segsOk n t

/-- The rendered text of the 1-based argument position `k` (`"NULL"`, the
rendering of the nil interface, for an out-of-range position). -/
def argRep (args : List GoVal) (k : Nat) : List Char :=
  Argument.format (args.getD (k - 1) GoVal.nilv)

/-- The struct pair list as the amended specification words it: one
`"name":value` pair per exported field in declaration order; the
serialization name is the first comma-separated part of the `json`
annotation when that part is nonempty and not the skip marker `-`, and
the declaration name otherwise; unexported fields are omitted (and
`json:"-"` fields are not). -/
def specFieldName (nm : List Char) : Option (List Char) → List Char
  | none => nm
  | some tag =>
    let p := tag.takeWhile (fun c => c != ',')
    if p = [] ∨ p = ['-'] then nm else p

/-- The spec-side pair list built from `specFieldName` (see its doc). -/
def specStructPairs : GoFields → List (List Char)
  | .nil => []
  | .cons nm ex tg v t =>
    if ex then Argument.jsonPair (specFieldName nm tg) (Argument.format v) :: specStructPairs t
    else specStructPairs t




theorem noDollar_iff {s : List Char} : noDollar s = true ↔ ∀ c ∈ s, c ≠ '$' := by
  simp [noDollar]

theorem expandReplF_noDollar (matched : List Char) :
    ∀ (f : Nat) (rep : List Char), noDollar rep = true → expandReplF matched f rep = rep := by
  intro f
  induction f with
  | zero => intro rep _; cases rep <;> rfl
  | succ f ih =>
    intro rep h
    cases rep with
    | nil => rfl
    | cons c rest =>
      rw [noDollar_iff] at h
      have hc : (c != '$') = true := by simpa using h c (by simp)
      simp only [expandReplF, if_pos hc]
      rw [ih rest (noDollar_iff.mpr fun d hd => h d (by simp [hd]))]

theorem expandRepl_noDollar (matched rep : List Char) (h : noDollar rep = true) :
    expandRepl matched rep = rep :=
  expandReplF_noDollar matched rep.length rep h

theorem replaceTok_nil (ds rep : List Char) : replaceTok ds rep [] = [] := rfl

theorem natDigitsF_fuel : ∀ f₁ f₂ n, n ≤ f₁ → n ≤ f₂ → natDigitsF f₁ n = natDigitsF f₂ n := by
  intro f₁
  induction f₁ with
  | zero =>
    intro f₂ n h₁ _
    interval_cases n
    cases f₂ <;> simp [natDigitsF]
  | succ f ih =>
    intro f₂ n h₁ h₂
    cases f₂ with
    | zero =>
      interval_cases n
      simp [natDigitsF]
    | succ g =>
      by_cases h : n < 10
      · simp [natDigitsF, h]
      · have hd : n / 10 < n := Nat.div_lt_self (by omega) (by omega)
        simp only [natDigitsF, if_neg h]
        rw [ih g (n / 10) (by omega) (by omega)]

theorem natDigits_lt10 {n : Nat} (h : n < 10) : natDigits n = [digitChar n] := by
  cases n with
  | zero => simp [natDigits, natDigitsF]
  | succ m => simp [natDigits, natDigitsF, h]

theorem natDigits_ge10 {n : Nat} (h : 10 ≤ n) : natDigits n = natDigits (n / 10) ++ [digitChar (n % 10)] := by
  obtain ⟨f, rfl⟩ : ∃ f, n = f + 1 := ⟨n - 1, by omega⟩
  show natDigitsF (f + 1) (f + 1) = _
  have hd : (f + 1) / 10 < f + 1 := Nat.div_lt_self (by omega) (by omega)
  simp only [natDigitsF, if_neg (by omega : ¬ f + 1 < 10)]
  rw [natDigitsF_fuel f ((f + 1) / 10) ((f + 1) / 10) (by omega) (le_refl _)]
  rfl

theorem digitChar_img : ∀ f n c, c ∈ natDigitsF f n → ∃ d, d < 10 ∧ c = digitChar d := by
  intro f
  induction f with
  | zero =>
    intro n c hc
    simp [natDigitsF] at hc
    exact ⟨n % 10, Nat.mod_lt _ (by omega), hc⟩
  | succ f ih =>
    intro n c hc
    by_cases h : n < 10
    · simp [natDigitsF, h] at hc
      exact ⟨n, h, hc⟩
    · simp only [natDigitsF, if_neg h, List.mem_append, List.mem_singleton] at hc
      rcases hc with hc | hc
      · exact ih _ _ hc
      · exact ⟨n % 10, Nat.mod_lt _ (by omega), hc⟩

theorem digitChar_wordChar {d : Nat} (h : d < 10) : wordChar (digitChar d) = true := by
  interval_cases d <;> decide

theorem digitChar_ne_dollar {d : Nat} (h : d < 10) : digitChar d ≠ '$' := by
  interval_cases d <;> decide

theorem natDigits_wordChar {n : Nat} {c : Char} (hc : c ∈ natDigits n) : wordChar c = true := by
  obtain ⟨d, hd, rfl⟩ := digitChar_img n n c hc
  exact digitChar_wordChar hd

theorem natDigits_noDollar (n : Nat) : noDollar (natDigits n) = true := by
  rw [noDollar_iff]
  intro c hc
  obtain ⟨d, hd, rfl⟩ := digitChar_img n n c hc
  exact digitChar_ne_dollar hd

theorem digitVal_digitChar {d : Nat} (h : d < 10) : digitVal (digitChar d) = d := by
  interval_cases d <;> decide

theorem digitsVal_append_one (ds : List Char) (c : Char) :
    digitsVal (ds ++ [c]) = digitsVal ds * 10 + digitVal c := by
  simp [digitsVal, List.foldl_append]

theorem digitsVal_natDigits : ∀ n, digitsVal (natDigits n) = n := by
  intro n
  induction n using Nat.strong_induction_on with
  | _ n ih =>
    by_cases h : n < 10
    · rw [natDigits_lt10 h]
      simp [digitsVal, digitVal_digitChar h]
    · rw [natDigits_ge10 (by omega), digitsVal_append_one,
        ih (n / 10) (Nat.div_lt_self (by omega) (by omega)),
        digitVal_digitChar (Nat.mod_lt _ (by omega))]
      omega

theorem natDigits_inj {a b : Nat} (h : natDigits a = natDigits b) : a = b := by
  have := digitsVal_natDigits a
  rw [h, digitsVal_natDigits] at this
  omega

theorem replaceTokF_fuel (ds rep : List Char) :
    ∀ f₁ f₂ s, s.length ≤ f₁ → s.length ≤ f₂ →
      replaceTokF ds rep f₁ s = replaceTokF ds rep f₂ s := by
  intro f₁
  induction f₁ with
  | zero =>
    intro f₂ s h₁ _
    have : s = [] := List.length_eq_zero.mp (by omega)
    subst this
    cases f₂ <;> rfl
  | succ f ih =>
    intro f₂ s h₁ h₂
    cases s with
    | nil => cases f₂ <;> rfl
    | cons c cs =>
      cases f₂ with
      | zero => simp at h₂
      | succ g =>
        simp only [replaceTokF]
        by_cases h : (c == '$' && startsList ds cs && matchEnd (cs.drop ds.length)) = true
        · rw [if_pos h, if_pos h,
            ih g (cs.drop ds.length) (by simp at h₁ ⊢; omega) (by simp at h₂ ⊢; omega)]
        · rw [if_neg h, if_neg h, ih g cs (by simp at h₁; omega) (by simp at h₂; omega)]

theorem replaceTok_cons_eq {ds cs : List Char} (rep : List Char)
    (h₁ : startsList ds cs = true) (h₂ : matchEnd (cs.drop ds.length) = true) :
    replaceTok ds rep ('$' :: cs) = rep ++ replaceTok ds rep (cs.drop ds.length) := by
  have hc : ('$' == '$' && startsList ds cs && matchEnd (cs.drop ds.length)) = true := by
    simp [h₁, h₂]
  show replaceTokF ds rep (cs.length + 1) ('$' :: cs) = _
  simp only [replaceTokF]
  rw [if_pos hc]
  congr 1
  exact replaceTokF_fuel ds rep cs.length (cs.drop ds.length).length (cs.drop ds.length)
    (by simp) (le_refl _)

theorem replaceTok_cons_ne {ds cs : List Char} {c : Char} (rep : List Char)
    (h : (c == '$' && startsList ds cs && matchEnd (cs.drop ds.length)) = false) :
    replaceTok ds rep (c :: cs) = c :: replaceTok ds rep cs := by
  show replaceTokF ds rep (cs.length + 1) (c :: cs) = _
  simp only [replaceTokF]
  rw [if_neg (by simp [h])]
  rfl

theorem replaceTok_append_noDollar {xs : List Char} (ds rep ys : List Char)
    (h : noDollar xs = true) :
    replaceTok ds rep (xs ++ ys) = xs ++ replaceTok ds rep ys := by
  induction xs with
  | nil => simp
  | cons c xs ih =>
    rw [noDollar_iff] at h
    have hc : (c == '$') = false := by
      simpa using h c (by simp)
    rw [List.cons_append, replaceTok_cons_ne rep (by simp [hc]), ih]
    · simp
    · rw [noDollar_iff]
      intro d hd
      exact h d (by simp [hd])

theorem replaceTok_noDollar {s : List Char} (ds rep : List Char) (h : noDollar s = true) :
    replaceTok ds rep s = s := by
  have := replaceTok_append_noDollar ds rep [] h
  simpa [replaceTok, replaceTokF] using this

theorem startsList_append_self (ds ys : List Char) : startsList ds (ds ++ ys) = true := by
  induction ds with
  | nil => rfl
  | cons d ds ih => simp [startsList, ih]

theorem startsList_cases : ∀ (a b c : List Char), startsList a (b ++ c) = true →
    (∃ t, b = a ++ t) ∨ (∃ u t, a = b ++ u :: t ∧ startsList (u :: t) c = true) := by
  intro a
  induction a with
  | nil => intro b c _; exact .inl ⟨b, rfl⟩
  | cons x a ih =>
    intro b c h
    cases b with
    | nil => exact .inr ⟨x, a, rfl, h⟩
    | cons y b =>
      simp only [List.cons_append, startsList, Bool.and_eq_true, beq_iff_eq] at h
      obtain ⟨rfl, h⟩ := h
      rcases ih b c h with ⟨t, rfl⟩ | ⟨u, t, rfl, hu⟩
      · exact .inl ⟨t, rfl⟩
      · exact .inr ⟨u, t, rfl, hu⟩

theorem startsList_head : ∀ (u : Char) (t ys : List Char), startsList (u :: t) ys = true →
    ∃ ys', ys = u :: ys' := by
  intro u t ys h
  cases ys with
  | nil => simp [startsList] at h
  | cons y ys =>
    simp only [startsList, Bool.and_eq_true, beq_iff_eq] at h
    exact ⟨ys, by rw [h.1]⟩

theorem replaceTok_token_eq {j : Nat} {ys : List Char} (rep : List Char)
    (hy : matchEnd ys = true) :
    replaceTok (natDigits j) rep ('$' :: (natDigits j ++ ys))
      = rep ++ replaceTok (natDigits j) rep ys := by
  have hdrop : (natDigits j ++ ys).drop (natDigits j).length = ys := List.drop_left _ _
  rw [replaceTok_cons_eq rep (startsList_append_self _ _) (by rw [hdrop]; exact hy), hdrop]

theorem replaceTok_token_ne {j k : Nat} {ys : List Char} (rep : List Char)
    (hjk : j ≠ k) (hy : matchEnd ys = true) :
    replaceTok (natDigits j) rep ('$' :: (natDigits k ++ ys))
      = '$' :: (natDigits k ++ replaceTok (natDigits j) rep ys) := by
  have hfalse : ('$' == '$' && startsList (natDigits j) (natDigits k ++ ys)
      && matchEnd ((natDigits k ++ ys).drop (natDigits j).length)) = false := by
    by_cases hs : startsList (natDigits j) (natDigits k ++ ys) = true
    · rcases startsList_cases _ _ _ hs with ⟨t, ht⟩ | ⟨u, t, ha, hu⟩
      · cases t with
        | nil =>
          exact absurd (natDigits_inj (by simpa using ht)).symm hjk
        | cons u t' =>
          have humem : u ∈ natDigits k := by rw [ht]; simp
          have hw : wordChar u = true := natDigits_wordChar humem
          have hdrop : (natDigits k ++ ys).drop (natDigits j).length = u :: (t' ++ ys) := by
            rw [ht, List.append_assoc, List.drop_left]
            simp
          rw [hdrop]
          simp [matchEnd, hw]
      · obtain ⟨ys', rfl⟩ := startsList_head u t ys hu
        have humem : u ∈ natDigits j := by rw [ha]; simp
        have hw : wordChar u = true := natDigits_wordChar humem
        simp [matchEnd, hw] at hy
    · simp only [Bool.and_eq_false_iff]
      left
      right
      exact Bool.not_eq_true _ ▸ (by simpa using hs)
  rw [replaceTok_cons_ne rep hfalse,
    replaceTok_append_noDollar (natDigits j) rep ys (natDigits_noDollar k)]



theorem midStr_start {n : Nat} (reps : Nat → List Char) :
    ∀ segs, segsOk n segs = true → midStr reps 1 segs = tmplStr segs := by
  intro segs
  induction segs with
  | nil => intro; rfl
  | cons sg t ih =>
    intro h
    cases sg with
    | lit s =>
      simp only [segsOk, Bool.and_eq_true] at h
      simp only [midStr, tmplStr, ih h.2]
    | hole k =>
      simp only [segsOk, Bool.and_eq_true, decide_eq_true_eq] at h
      simp only [midStr, tmplStr, ih h.2, if_neg (by omega : ¬ k < 1)]
      simp

theorem midStr_done {n : Nat} (reps : Nat → List Char) {j : Nat} (hj : n < j) :
    ∀ segs, segsOk n segs = true → midStr reps j segs = outStr reps segs := by
  intro segs
  induction segs with
  | nil => intro; rfl
  | cons sg t ih =>
    intro h
    cases sg with
    | lit s =>
      simp only [segsOk, Bool.and_eq_true] at h
      simp only [midStr, outStr, ih h.2]
    | hole k =>
      simp only [segsOk, Bool.and_eq_true, decide_eq_true_eq] at h
      obtain ⟨⟨⟨hk1, hkn⟩, -⟩, hrest⟩ := h
      simp only [midStr, outStr, ih hrest, if_pos (by omega : k < j)]

theorem matchEnd_midStr (reps : Nat → List Char) (j : Nat) :
    ∀ t, tailOk t = true → matchEnd (midStr reps j t) = true := by
  intro t ht
  cases t with
  | nil => rfl
  | cons sg t' =>
    cases sg with
    | lit s =>
      cases s with
      | nil => simp [tailOk] at ht
      | cons c s' =>
        simp only [tailOk] at ht
        simpa [midStr, matchEnd] using ht
    | hole k => simp [tailOk] at ht

theorem segsStep {n : Nat} {reps : Nat → List Char}
    (hreps : ∀ k, noDollar (reps k) = true) :
    ∀ segs, segsOk n segs = true → ∀ j, 1 ≤ j →
      replaceTok (natDigits j) (reps j) (midStr reps j segs) = midStr reps (j + 1) segs := by
  intro segs
  induction segs with
  | nil => intro _ j _; rfl
  | cons sg t ih =>
    intro h j hj
    cases sg with
    | lit s =>
      simp only [segsOk, Bool.and_eq_true] at h
      simp only [midStr]
      rw [replaceTok_append_noDollar _ _ _ h.1, ih h.2 j hj]
    | hole k =>
      simp only [segsOk, Bool.and_eq_true, decide_eq_true_eq] at h
      obtain ⟨⟨⟨hk1, hkn⟩, htail⟩, hrest⟩ := h
      have hme : matchEnd (midStr reps j t) = true := matchEnd_midStr reps j t htail
      simp only [midStr]
      by_cases hlt : k < j
      · rw [if_pos hlt, if_pos (by omega : k < j + 1),
          replaceTok_append_noDollar _ _ _ (hreps k), ih hrest j hj]
      · rw [if_neg hlt]
        by_cases heq : k = j
        · subst heq
          rw [List.cons_append, replaceTok_token_eq _ hme, ih hrest k hj,
            if_pos (by omega : k < k + 1)]
        · rw [List.cons_append, replaceTok_token_ne _ (fun hh => heq hh.symm) hme,
            ih hrest j hj, if_neg (by omega : ¬ k < j + 1)]
          simp

theorem substLoop_mid {n : Nat} {reps : Nat → List Char} {segs : List Seg}
    (hreps : ∀ k, noDollar (reps k) = true) (hsegs : segsOk n segs = true) :
    ∀ (args : List GoVal) (idx : Nat), 1 ≤ idx →
      (∀ i, i < args.length → Argument.format (args.getD i GoVal.nilv) = reps (idx + i)) →
      substLoop args idx (midStr reps idx segs) = midStr reps (idx + args.length) segs := by
  intro args
  induction args with
  | nil => intro idx _ _; simp [substLoop]
  | cons a rest ih =>
    intro idx hidx hfmt
    have h0 : Argument.format a = reps idx := by simpa using hfmt 0 (by simp)
    have hlen : idx + (a :: rest).length = (idx + 1) + rest.length := by simp; omega
    rw [hlen]
    simp only [substLoop, ReplaceAll]
    rw [h0, expandRepl_noDollar _ _ (hreps idx), segsStep hreps segs hsegs idx hidx]
    exact ih (idx + 1) (by omega) (fun i hi => by
      have := hfmt (i + 1) (by simp; omega)
      simpa [show idx + (i + 1) = idx + 1 + i from by omega] using this)



theorem argRep_noDollar (args : List GoVal)
    (h : ∀ a ∈ args, noDollar (Argument.format a) = true) :
    ∀ k, noDollar (argRep args k) = true := by
  intro k
  unfold argRep
  by_cases hk : k - 1 < args.length
  · rw [List.getD_eq_getElem _ _ hk]
    exact h _ (List.getElem_mem hk)
  · rw [List.getD_eq_default _ _ (by omega)]
    decide

theorem toList_mk (l : List Char) : (String.mk l).toList = l := rfl

/-- C1 (amended): provided no argument's rendered text contains a `$`
character and the template is an alternation of dollar-free literal text
and in-range placeholder tokens each followed by end-of-template or a
non-word character, `Format` returns the template with every occurrence of
the placeholder token `$k` replaced by the rendered text of argument `k`
(identical at every repetition) and all other text unchanged.  Without
the proviso the loop substitutes sequentially for `k = 1, 2, ...` over the
already-substituted string, so rendered text containing a later
placeholder token is substituted again (see the counterexample). -/
theorem Format_replaces_every_placeholder (segs : List Seg) (args : List GoVal)
    (hsegs : segsOk args.length segs = true)
    (hargs : ∀ a ∈ args, noDollar (Argument.format a) = true) :
    Format (String.mk (tmplStr segs)) args = String.mk (outStr (argRep args) segs) := by
  unfold Format
  congr 1
  rw [toList_mk]
  have hreps := argRep_noDollar args hargs
  rw [← midStr_start (n := args.length) (argRep args) segs hsegs]
  rw [substLoop_mid (n := args.length) hreps hsegs args 1 (le_refl 1)
    (fun i hi => by simp only [argRep, Nat.add_sub_cancel_left])]
  exact midStr_done (argRep args) (by omega) segs hsegs

/-- C1 (counterexample): on the template `$1 $2` with arguments the string
`$2` and the integer 7, `Format` returns `'' 7`, not the `'$2' 7` the
claim describes: argument 1's rendered text `'$2'` is not inserted
verbatim — `ReplaceAll` expands the `$2` it contains as an (absent)
capture-group reference — so the first pass already yields `'' $2`, whose
trailing token the second pass then substitutes. -/
theorem Format_sequential_counterexample :
    Format "$1 $2" [GoVal.str ['$', '2'], GoVal.intv 7]
        = String.mk ['\'', '\'', ' ', '7']
      ∧ String.mk (tmplStr [Seg.hole 1, Seg.lit [' '], Seg.hole 2]) = "$1 $2"
      ∧ String.mk (outStr (argRep [GoVal.str ['$', '2'], GoVal.intv 7])
            [Seg.hole 1, Seg.lit [' '], Seg.hole 2])
          = String.mk ['\'', '$', '2', '\'', ' ', '7']
      ∧ (String.mk ['\'', '\'', ' ', '7'] : String)
          ≠ String.mk ['\'', '$', '2', '\'', ' ', '7'] := by
  refine ⟨by decide, by decide, by decide, by decide⟩

/-- C1 (witness): the claim's own scenario satisfies the amended
hypotheses, and the theorem instantiates to
`Format "SELECT $1, $2, $1" [4, 5] = "SELECT 4, 5, 4"`. -/
theorem Format_replaces_every_placeholder_witness :
    Format "SELECT $1, $2, $1" [GoVal.intv 4, GoVal.intv 5] = "SELECT 4, 5, 4" := by
  have h := Format_replaces_every_placeholder
    [Seg.lit "SELECT ".toList, Seg.hole 1, Seg.lit ", ".toList, Seg.hole 2,
     Seg.lit ", ".toList, Seg.hole 1]
    [GoVal.intv 4, GoVal.intv 5] (by decide) (by decide)
  have e₁ : String.mk (tmplStr [Seg.lit "SELECT ".toList, Seg.hole 1, Seg.lit ", ".toList,
      Seg.hole 2, Seg.lit ", ".toList, Seg.hole 1]) = "SELECT $1, $2, $1" := by decide
  have e₂ : String.mk (outStr (argRep [GoVal.intv 4, GoVal.intv 5])
      [Seg.lit "SELECT ".toList, Seg.hole 1, Seg.lit ", ".toList, Seg.hole 2,
       Seg.lit ", ".toList, Seg.hole 1]) = "SELECT 4, 5, 4" := by decide
  rw [e₁, e₂] at h
  exact h

/-- C2 (amended): the token boundary is the regular-expression word
boundary `\b`, not "the first non-digit character": an in-range token
followed by end-of-template or by a non-word character (anything but a
letter, digit or underscore) is replaced, while a token followed by a word
character — a digit as in `$10`/`$12`, but equally a letter or an
underscore as in `$1x`/`$1_` — is left unchanged.  (The `noDollar`
hypothesis keeps the replacement text inert under `ReplaceAll`'s
capture-group expansion, which is not this claim's concern.) -/
theorem Format_token_word_boundary (v : GoVal) (c : Char)
    (hv : noDollar (Argument.format v) = true) :
    Format (String.mk ['$', '1', c]) [v]
        = (if wordChar c then String.mk ['$', '1', c]
           else String.mk (Argument.format v ++ [c]))
      ∧ Format "$1" [v] = String.mk (Argument.format v)
      ∧ Format "$10" [v] = "$10"
      ∧ Format "$12" [v] = "$12" := by
  have h1 : natDigits 1 = ['1'] := rfl
  refine ⟨?_, ?_, ?_, ?_⟩
  · unfold Format
    simp only [substLoop, ReplaceAll, toList_mk]
    rw [expandRepl_noDollar _ _ hv]
    by_cases hw : wordChar c
    · rw [if_pos hw]
      congr 1
      have hcond : ('$' == '$' && startsList (natDigits 1) ['1', c]
          && matchEnd ((['1', c] : List Char).drop (natDigits 1).length)) = false := by
        simp [h1, startsList, matchEnd, hw]
      rw [replaceTok_cons_ne _ hcond,
        replaceTok_cons_ne _ (by simp [h1, startsList]),
        replaceTok_cons_ne _ (by simp [h1, startsList])]
      rfl
    · rw [if_neg hw]
      congr 1
      have hsh : (['$', '1', c] : List Char) = '$' :: (natDigits 1 ++ [c]) := by simp [h1]
      rw [hsh, replaceTok_token_eq _ (show matchEnd [c] = true by simpa [matchEnd] using hw),
        replaceTok_cons_ne _ (by simp [h1, startsList])]
      rfl
  · unfold Format
    simp only [substLoop, ReplaceAll]
    rw [expandRepl_noDollar _ _ hv]
    have hsh : ("$1" : String).toList = '$' :: (natDigits 1 ++ []) := by simp [h1]
    rw [hsh, replaceTok_token_eq _ (show matchEnd [] = true from rfl)]
    simp [replaceTok, replaceTokF]
  · unfold Format
    simp only [substLoop, ReplaceAll]
    have hsh : ("$10" : String).toList = '$' :: (natDigits 10 ++ []) := by rfl
    rw [hsh, replaceTok_token_ne _ (by omega) (show matchEnd [] = true from rfl)]
    rfl
  · unfold Format
    simp only [substLoop, ReplaceAll]
    have hsh : ("$12" : String).toList = '$' :: (natDigits 12 ++ []) := by rfl
    rw [hsh, replaceTok_token_ne _ (by omega) (show matchEnd [] = true from rfl)]
    rfl

/-- C2 (witness): at the integer 5 — whose rendered text `5` is
dollar-free — and the non-word follower `-`, the token is replaced
(`$1-` becomes `5-`) while `$10` stays unchanged. -/
theorem Format_token_word_boundary_witness :
    Format "$1-" [GoVal.intv 5] = "5-" ∧ Format "$10" [GoVal.intv 5] = "$10" := by
  have h := Format_token_word_boundary (GoVal.intv 5) '-' (by decide)
  constructor
  · have h1 := h.1
    rw [if_neg (by decide)] at h1
    have e₁ : String.mk ['$', '1', '-'] = "$1-" := by decide
    have e₂ : String.mk (Argument.format (GoVal.intv 5) ++ ['-']) = "5-" := by decide
    rw [e₁, e₂] at h1
    exact h1
  · exact h.2.2.1

/-- C2 (counterexample): the claim predicts that in `$1x` the token `$1`,
being followed by the non-digit `x`, is replaced by argument 1's rendered
text — `Format "$1x" [5]` would be `5x` — but the code's `\b` boundary
does not match between `1` and `x`, and the template is returned
unchanged. -/
theorem Format_token_boundary_counterexample :
    Format "$1x" [GoVal.intv 5] = "$1x"
      ∧ Argument.format (GoVal.intv 5) = ['5']
      ∧ ("$1x" : String) ≠ "5x" := by
  refine ⟨by decide, by decide, by decide⟩

/-- C3 (the code evaluated at the failing input): `Print` reaches the
type assertion `arg.([]any)` for every value of slice kind, so on the
ordered element sequence `[]int{1,2,3}` — whose dynamic type is not
`[]any` — it panics (modelled as `none`), while `Format` renders the same
value through reflection without aborting. -/
theorem Print_panics_on_int_slice :
    Print "SELECT $1" [GoVal.slice false (GoVals.cons (GoVal.intv 1)
        (GoVals.cons (GoVal.intv 2) (GoVals.cons (GoVal.intv 3) GoVals.nil)))] = none
      ∧ Format "SELECT $1" [GoVal.slice false (GoVals.cons (GoVal.intv 1)
          (GoVals.cons (GoVal.intv 2) (GoVals.cons (GoVal.intv 3) GoVals.nil)))]
        = String.mk ("SELECT ".toList ++ '\'' :: '{' :: ("1,2,3".toList ++ ['}', '\''])) := by
  refine ⟨by decide, by decide⟩

/-- C4 (amended): the renderer used by `Format` single-quotes a string
after doubling every embedded single quote, but the package-level renderer
used by `Print` single-quotes the string verbatim, without the
doubling. -/
theorem format_string_quoting (s : List Char) :
    Argument.format (GoVal.str s) = '\'' :: escQuote s ++ ['\'']
      ∧ format (GoVal.str s) = some ('\'' :: s ++ ['\'']) :=
  ⟨rfl, rfl⟩

/-- C4 (counterexample): on the string `O'R` the `Print`-path renderer
returns `'O'R'` — the embedded quote is not doubled — which differs from
the claimed quote-doubling form `'O''R'`. -/
theorem format_string_quoting_counterexample :
    format (GoVal.str ['O', '\'', 'R']) = some ['\'', 'O', '\'', 'R', '\'']
      ∧ (some (['\'', 'O', '\'', 'R', '\''] : List Char))
          ≠ some ('\'' :: escQuote ['O', '\'', 'R'] ++ ['\'']) := by
  refine ⟨by decide, by decide⟩



theorem fieldName_eq_spec (nm : List Char) (tg : Option (List Char)) :
    Argument.fieldName nm tg = specFieldName nm tg := by
  cases tg with
  | none => rfl
  | some tag =>
    simp only [Argument.fieldName, specFieldName]
    by_cases h1 : tag.takeWhile (fun c => c != ',') = []
    · simp [h1]
    · by_cases h2 : tag.takeWhile (fun c => c != ',') = ['-']
      · simp [h2]
      · simp [h1, h2]

theorem structPairs_eq_spec : ∀ fs, Argument.structPairs fs = specStructPairs fs
  | .nil => rfl
  | .cons nm ex tg v t => by
    simp only [Argument.structPairs, specStructPairs, fieldName_eq_spec,
      structPairs_eq_spec t]

/-- C5 (amended): a struct renders as one `"name":value` pair per
exported field in declaration order, the name overridden by the first
comma-part of the `json` annotation when that part is nonempty and not
`-`; unexported fields are omitted — but fields annotated `json:"-"` are
NOT omitted: the tag is merely ignored and the declaration name used. -/
theorem formatStruct_field_pairs (fs : GoFields) :
    Argument.format (GoVal.strct fs)
      = '\'' :: '{' :: joinComma (specStructPairs fs) ++ ['}', '\''] := by
  show '\'' :: '{' :: joinComma (Argument.structPairs fs) ++ ['}', '\''] = _
  rw [structPairs_eq_spec]

/-- C5 (counterexample): a struct whose only field is exported and tagged
`json:"-"` renders that field under its declaration name instead of
omitting it, so the output is not the empty composite the claim
predicts. -/
theorem formatStruct_skip_tag_counterexample :
    Argument.format (GoVal.strct (GoFields.cons ['N', 'a', 'm', 'e'] true (some ['-'])
        (GoVal.intv 3) GoFields.nil))
      = ['\'', '{', '"', 'N', 'a', 'm', 'e', '"', ':', '3', '}', '\'']
      ∧ (['\'', '{', '"', 'N', 'a', 'm', 'e', '"', ':', '3', '}', '\''] : List Char)
          ≠ ['\'', '{', '}', '\''] := by
  refine ⟨by decide, by decide⟩

theorem intRepr_natCast (k : Nat) : intRepr (k : Int) = natDigits k := by
  unfold intRepr
  rw [if_neg (by omega), Int.toNat_natCast]

/-- C6: each `sql.Null*`/`pq.NullTime` wrapper renders `NULL` when its
validity flag is false, and renders exactly as its inner value's own
category would when the flag is true (booleans as `true`/`false`, the
integer family in decimal, strings single-quoted with quote doubling,
times as quoted RFC3339 instants). -/
theorem nullWrapper_rendering (b : Bool) (k : Nat) (n : Int) (s rfc g : List Char) :
    (Argument.format (GoVal.nullBool false b) = "NULL".toList
      ∧ Argument.format (GoVal.nullBool true b) = Argument.format (GoVal.boolv b))
    ∧ (Argument.format (GoVal.nullByte false k) = "NULL".toList
      ∧ Argument.format (GoVal.nullByte true k) = Argument.format (GoVal.intv k))
    ∧ (Argument.format (GoVal.nullInt16 false n) = "NULL".toList
      ∧ Argument.format (GoVal.nullInt16 true n) = Argument.format (GoVal.intv n))
    ∧ (Argument.format (GoVal.nullInt32 false n) = "NULL".toList
      ∧ Argument.format (GoVal.nullInt32 true n) = Argument.format (GoVal.intv n))
    ∧ (Argument.format (GoVal.nullInt64 false n) = "NULL".toList
      ∧ Argument.format (GoVal.nullInt64 true n) = Argument.format (GoVal.intv n))
    ∧ (Argument.format (GoVal.nullString false s) = "NULL".toList
      ∧ Argument.format (GoVal.nullString true s) = Argument.format (GoVal.str s))
    ∧ (Argument.format (GoVal.nullTime false rfc g) = "NULL".toList
      ∧ Argument.format (GoVal.nullTime true rfc g) = Argument.format (GoVal.timev rfc g))
    ∧ (Argument.format (GoVal.pqNullTime false rfc g) = "NULL".toList
      ∧ Argument.format (GoVal.pqNullTime true rfc g) = Argument.format (GoVal.timev rfc g)) := by
  refine ⟨⟨rfl, rfl⟩, ⟨rfl, ?_⟩, ⟨rfl, rfl⟩, ⟨rfl, rfl⟩, ⟨rfl, rfl⟩, ⟨rfl, rfl⟩,
    ⟨rfl, rfl⟩, ⟨rfl, rfl⟩⟩
  show natDigits k = intRepr (k : Int)
  rw [intRepr_natCast]

/-- C7 (amended): the renderer behind `Format` unwraps one level of
indirection and renders the referent identically to passing it directly;
the `Print`-path renderer does not have this property (see the
counterexample). -/
theorem formatPtr_unwrap (v : GoVal) :
    Argument.format (GoVal.ptrTo v) = Argument.format v := rfl

/-- C7 (counterexample): `Print`'s pointer branch hands the dereferenced
`reflect.Value` back to `format`, where no guard matches and the `%v`
fallback prints the referent unquoted: a pointer to the string `a` renders
`a`, while the string itself renders `'a'`. -/
theorem formatPtr_print_counterexample :
    format (GoVal.ptrTo (GoVal.str ['a'])) = some ['a']
      ∧ format (GoVal.str ['a']) = some ['\'', 'a', '\'']
      ∧ format (GoVal.ptrTo (GoVal.str ['a'])) ≠ format (GoVal.str ['a']) := by
  refine ⟨by decide, by decide, by decide⟩

theorem gsize_pos (v : GoVal) : 1 ≤ gsize v := by
  cases v <;> simp [gsize]

theorem gsizeL_pos (xs : GoVals) : 1 ≤ gsizeL xs := by
  cases xs <;> simp [gsizeL]

theorem gsizeP_pos (ps : GoPairs) : 1 ≤ gsizeP ps := by
  cases ps <;> simp [gsizeP]

theorem gsizeF_pos (fs : GoFields) : 1 ≤ gsizeF fs := by
  cases fs <;> simp [gsizeF]

theorem formatFuel_adequate_all : ∀ f : Nat,
    (∀ v, gsize v ≤ f → formatFuel f v = some (Argument.format v))
    ∧ (∀ xs, gsizeL xs ≤ f → formatFuelL f xs = some (Argument.formatElems xs))
    ∧ (∀ ps, gsizeP ps ≤ f → formatFuelP f ps = some (Argument.mapPairs ps))
    ∧ (∀ fs, gsizeF fs ≤ f → formatFuelF f fs = some (Argument.structPairs fs)) := by
  intro f
  induction f with
  | zero =>
    refine ⟨fun v hv => ?_, fun xs hxs => ?_, fun ps hps => ?_, fun fs hfs => ?_⟩
    · exact absurd hv (by have := gsize_pos v; omega)
    · exact absurd hxs (by have := gsizeL_pos xs; omega)
    · exact absurd hps (by have := gsizeP_pos ps; omega)
    · exact absurd hfs (by have := gsizeF_pos fs; omega)
  | succ f ih =>
    obtain ⟨ihV, ihL, ihP, ihF⟩ := ih
    refine ⟨fun v hv => ?_, fun xs hxs => ?_, fun ps hps => ?_, fun fs hfs => ?_⟩
    · cases v
      case ptrTo w =>
        simp only [gsize] at hv
        simp only [formatFuel, ihV w (by omega)]
        rfl
      case slice b xs =>
        simp only [gsize] at hv
        simp only [formatFuel, ihL xs (by omega)]
        rfl
      case mapv ps =>
        simp only [gsize] at hv
        simp only [formatFuel, ihP ps (by omega)]
        rfl
      case strct fs =>
        simp only [gsize] at hv
        simp only [formatFuel, ihF fs (by omega)]
        rfl
      all_goals rfl
    · cases xs with
      | nil => rfl
      | cons v t =>
        simp only [gsizeL] at hxs
        simp only [formatFuelL, ihV v (by have := gsizeL_pos t; omega),
          ihL t (by have := gsize_pos v; omega)]
        rfl
    · cases ps with
      | nil => rfl
      | cons k v t =>
        simp only [gsizeP] at hps
        simp only [formatFuelP, ihV v (by have := gsizeP_pos t; omega),
          ihP t (by have := gsize_pos v; omega)]
        rfl
    · cases fs with
      | nil => rfl
      | cons nm ex tg v t =>
        simp only [gsizeF] at hfs
        cases ex with
        | true =>
          simp only [formatFuelF, if_pos, ihV v (by have := gsizeF_pos t; omega),
            ihF t (by have := gsize_pos v; omega)]
          rfl
        | false =>
          simp only [formatFuelF, if_neg, ihF t (by have := gsize_pos v; omega)]
          rfl

/-- C9: the renderer's recursion terminates within structural size: with
any fuel of at least `gsize v` units — one spent per recursive self-call
into a pointer referent, slice element, map value or struct field — the
depth-guarded renderer completes and agrees with the total embedded
renderer, on every finite acyclic value. -/
theorem format_terminates_within_size (v : GoVal) (f : Nat) (h : gsize v ≤ f) :
    formatFuel f v = some (Argument.format v) :=
  (formatFuel_adequate_all f).1 v h

/-- C9 (witness): a pointer to a one-element slice has size 5 and its
rendering completes with 5 units of fuel. -/
theorem format_terminates_within_size_witness :
    gsize (GoVal.ptrTo (GoVal.slice false (GoVals.cons (GoVal.intv 3) GoVals.nil))) ≤ 5
      ∧ formatFuel 5 (GoVal.ptrTo (GoVal.slice false (GoVals.cons (GoVal.intv 3) GoVals.nil)))
        = some (Argument.format (GoVal.ptrTo (GoVal.slice false
            (GoVals.cons (GoVal.intv 3) GoVals.nil)))) :=
  ⟨by decide, format_terminates_within_size _ 5 (by decide)⟩

/-- C10: a nil-valued slice or map held in a non-nil interface is not
Null: `isNull` only accepts the nil interface and nil typed pointers, so
classification yields `Slice` (resp. `Map`) and rendering yields the
empty composite literal, the model identifying nil with empty because the
code distinguishes them nowhere. -/
theorem nil_slice_map_classification : ∀ ea : Bool,
    Argument.GetType (GoVal.slice ea GoVals.nil) = ParameterType.Slice
      ∧ Argument.format (GoVal.slice ea GoVals.nil) = ['\'', '{', '}', '\'']
      ∧ Argument.GetType (GoVal.mapv GoPairs.nil) = ParameterType.Map
      ∧ Argument.format (GoVal.mapv GoPairs.nil) = ['\'', '{', '}', '\''] := by
  decide

theorem startsList_length_le : ∀ {a b : List Char}, startsList a b = true → a.length ≤ b.length := by
  intro a
  induction a with
  | nil => intro b _; simp
  | cons x a ih =>
    intro b h
    cases b with
    | nil => simp [startsList] at h
    | cons y b =>
      simp only [startsList, Bool.and_eq_true] at h
      simpa using ih h.2

theorem startsList_append_r {a b : List Char} (r : List Char) (h : startsList a b = true) :
    startsList a (b ++ r) = true := by
  induction a generalizing b with
  | nil => rfl
  | cons x a ih =>
    cases b with
    | nil => simp [startsList] at h
    | cons y b =>
      simp only [startsList, Bool.and_eq_true] at h
      simp only [List.cons_append, startsList, Bool.and_eq_true]
      exact ⟨h.1, ih h.2⟩

theorem natDigits_lt_pow_len : ∀ a : Nat, a < 10 ^ (natDigits a).length := by
  intro a
  induction a using Nat.strong_induction_on with
  | _ a ih =>
    by_cases h : a < 10
    · rw [natDigits_lt10 h]
      simpa using h
    · rw [natDigits_ge10 (by omega)]
      have hd : a / 10 < a := Nat.div_lt_self (by omega) (by omega)
      have := ih (a / 10) hd
      have hpow : 10 ^ ((natDigits (a / 10)).length + 1) = 10 ^ (natDigits (a / 10)).length * 10 :=
        pow_succ 10 _
      simp only [List.length_append, List.length_singleton]
      rw [hpow]
      omega

theorem pow_len_le_natDigits : ∀ a : Nat, 1 ≤ a → 10 ^ ((natDigits a).length - 1) ≤ a := by
  intro a
  induction a using Nat.strong_induction_on with
  | _ a ih =>
    intro ha
    by_cases h : a < 10
    · rw [natDigits_lt10 h]
      simpa using ha
    · rw [natDigits_ge10 (by omega)]
      have hd : a / 10 < a := Nat.div_lt_self (by omega) (by omega)
      have h1 : 1 ≤ a / 10 := by omega
      have := ih (a / 10) hd h1
      simp only [List.length_append, List.length_singleton]
      have hlen : 1 ≤ (natDigits (a / 10)).length := by
        cases hnd : natDigits (a / 10) with
        | nil =>
          have := digitsVal_natDigits (a / 10)
          rw [hnd] at this
          simp [digitsVal] at this
          omega
        | cons c l => simp
      have hpow : 10 ^ ((natDigits (a / 10)).length + 1 - 1)
          = 10 ^ ((natDigits (a / 10)).length - 1) * 10 := by
        rw [Nat.add_sub_cancel]
        calc 10 ^ (natDigits (a / 10)).length
            = 10 ^ ((natDigits (a / 10)).length - 1 + 1) := by rw [Nat.sub_add_cancel hlen]
          _ = 10 ^ ((natDigits (a / 10)).length - 1) * 10 := pow_succ 10 _
      rw [hpow]
      have hdm := Nat.div_add_mod a 10
      omega

theorem no_match_over {j m : Nat} (hj : 1 ≤ j) (hjm : j < m) (ys : List Char) :
    ('$' == '$' && startsList (natDigits j) (natDigits m ++ ys)
      && matchEnd ((natDigits m ++ ys).drop (natDigits j).length)) = false := by
  by_cases hs : startsList (natDigits j) (natDigits m ++ ys) = true
  · rcases startsList_cases _ _ _ hs with ⟨t, ht⟩ | ⟨u, t, ha, hu⟩
    · cases t with
      | nil => exact absurd (natDigits_inj (by simpa using ht)).symm (by omega)
      | cons u t' =>
        have humem : u ∈ natDigits m := by rw [ht]; simp
        have hw : wordChar u = true := natDigits_wordChar humem
        have hdrop : (natDigits m ++ ys).drop (natDigits j).length = u :: (t' ++ ys) := by
          rw [ht, List.append_assoc, List.drop_left]
          simp
        rw [hdrop]
        simp [matchEnd, hw]
    · exfalso
      have hlenj : (natDigits j).length = (natDigits m).length + (u :: t).length := by
        rw [ha]; simp
    -- natDigits j strictly longer than natDigits m forces m < j
      have h1 := natDigits_lt_pow_len m
      have h2 := pow_len_le_natDigits j hj
      have h3 : 10 ^ (natDigits m).length ≤ 10 ^ ((natDigits j).length - 1) :=
        Nat.pow_le_pow_right (by omega) (by simp at hlenj; omega)
      omega
  · simp only [Bool.and_eq_false_iff]
    left
    right
    exact Bool.not_eq_true _ ▸ (by simpa using hs)

theorem replaceTok_split {j m : Nat} (rep : List Char) (hj : 1 ≤ j) (hjm : j < m) :
    ∀ (n : Nat) (pre : List Char), pre.length ≤ n → ∀ (suf : List Char),
      replaceTok (natDigits j) rep (pre ++ '$' :: (natDigits m ++ suf))
        = replaceTok (natDigits j) rep pre
            ++ '$' :: (natDigits m ++ replaceTok (natDigits j) rep suf) := by
  intro n
  induction n with
  | zero =>
    intro pre hn suf
    have : pre = [] := List.length_eq_zero.mp (by omega)
    subst this
    rw [List.nil_append, replaceTok_cons_ne _ (no_match_over hj hjm suf),
      replaceTok_append_noDollar _ _ _ (natDigits_noDollar m), replaceTok_nil, List.nil_append]
  | succ n ih =>
    intro pre hn suf
    cases pre with
    | nil =>
      rw [List.nil_append, replaceTok_cons_ne _ (no_match_over hj hjm suf),
        replaceTok_append_noDollar _ _ _ (natDigits_noDollar m), replaceTok_nil, List.nil_append]
    | cons c pc =>
      by_cases hc : (c == '$') = true
      · by_cases hs : startsList (natDigits j) pc = true
        · have hk : (natDigits j).length ≤ pc.length := startsList_length_le hs
          have hdrop : ((pc ++ '$' :: (natDigits m ++ suf)).drop (natDigits j).length)
              = pc.drop (natDigits j).length ++ '$' :: (natDigits m ++ suf) :=
            List.drop_append_of_le_length hk
          by_cases hb : matchEnd (pc.drop (natDigits j).length) = true
          · -- a genuine match just before the over-indexed token or deeper in `pre`
            have hbc : matchEnd ((pc ++ '$' :: (natDigits m ++ suf)).drop (natDigits j).length)
                = true := by
              rw [hdrop]
              cases hpc : pc.drop (natDigits j).length with
              | nil => simp [matchEnd, wordChar]
              | cons d l =>
                rw [hpc] at hb
                simpa [matchEnd] using hb
            have hcq : c = '$' := by simpa using hc
            subst hcq
            rw [List.cons_append,
              replaceTok_cons_eq _ (startsList_append_r _ hs) hbc,
              replaceTok_cons_eq _ hs hb, hdrop,
              ih (pc.drop (natDigits j).length) (by simp at hn ⊢; omega) suf]
            simp
          · -- boundary fails identically with and without the context
            have hbc : matchEnd ((pc ++ '$' :: (natDigits m ++ suf)).drop (natDigits j).length)
                = false := by
              rw [hdrop]
              cases hpc : pc.drop (natDigits j).length with
              | nil =>
                rw [hpc] at hb
                simp [matchEnd] at hb
              | cons d l =>
                rw [hpc] at hb
                simpa [matchEnd] using hb
            rw [List.cons_append,
              replaceTok_cons_ne _ (by simp [hbc]),
              replaceTok_cons_ne _ (by simp [hb]),
              ih pc (by simp at hn; omega) suf]
            simp
        · -- the token `$j` starts nowhere here: `natDigits j` is no prefix of
          -- `pc` and cannot continue across the `$` of the over-indexed token
          have hext : startsList (natDigits j) (pc ++ '$' :: (natDigits m ++ suf)) = false := by
            by_contra hx
            have hx' : startsList (natDigits j) (pc ++ '$' :: (natDigits m ++ suf)) = true := by
              simpa using hx
            rcases startsList_cases _ _ _ hx' with ⟨t, ht⟩ | ⟨u, t, ha, hu⟩
            · rw [ht] at hs
              exact hs (startsList_append_self _ _)
            · obtain ⟨ys', hys⟩ := startsList_head u t _ hu
              have humem : u ∈ natDigits j := by rw [ha]; simp
              have hu' : u = '$' := by
                have := congrArg List.head? hys
                simpa using this.symm
              exact absurd hu' ((noDollar_iff.mp (natDigits_noDollar j)) u humem)
          rw [List.cons_append,
            replaceTok_cons_ne _ (by simp [hext]),
            replaceTok_cons_ne _ (by simp [hs]),
            ih pc (by simp at hn; omega) suf]
          simp
      · rw [List.cons_append,
          replaceTok_cons_ne _ (by simp [hc]),
          replaceTok_cons_ne _ (by simp [hc]),
          ih pc (by simp at hn; omega) suf]
        simp

theorem substLoop_split {m : Nat} :
    ∀ (args : List GoVal) (idx : Nat), 1 ≤ idx → idx + args.length ≤ m →
      ∀ (pre suf : List Char),
        substLoop args idx (pre ++ '$' :: (natDigits m ++ suf))
          = substLoop args idx pre ++ '$' :: (natDigits m ++ substLoop args idx suf) := by
  intro args
  induction args with
  | nil => intro idx _ _ pre suf; rfl
  | cons a rest ih =>
    intro idx hidx hle pre suf
    simp only [substLoop, ReplaceAll]
    rw [replaceTok_split _ hidx (by simp at hle; omega) pre.length pre (le_refl _) suf]
    exact ih (idx + 1) (by omega) (by simp at hle; omega) _ _

/-- C8: a placeholder token whose index `m` exceeds the argument count is
left character-for-character unmodified wherever it stands in the
template, and no error is signalled: for every decomposition of the
template into a prefix, the token `$m`, and a suffix, `Format` substitutes
the prefix and the suffix exactly as it would in isolation and keeps the
token itself verbatim — no pass can match inside it (a shorter in-range
token fails the `\b` boundary on the next digit, a longer one cannot be
in range), and its leading `$` acts on its left neighbourhood exactly
like an end of template. -/
theorem Format_over_indexed_unmodified (m : Nat) (args : List GoVal) (pre suf : List Char)
    (h : args.length < m) :
    Format (String.mk (pre ++ '$' :: (natDigits m ++ suf))) args
      = String.mk (substLoop args 1 pre ++ '$' :: (natDigits m ++ substLoop args 1 suf)) := by
  unfold Format
  congr 1
  rw [toList_mk]
  exact substLoop_split args 1 (le_refl _) (by omega) pre suf

/-- C8 (witness): with a single argument, the over-indexed `$10` inside
`SELECT $1, $10 x` survives unmodified while the in-range `$1` around it
is substituted: the result is `SELECT 7, $10 x`. -/
theorem Format_over_indexed_unmodified_witness :
    Format "SELECT $1, $10 x" [GoVal.intv 7] = "SELECT 7, $10 x" := by
  have h := Format_over_indexed_unmodified 10 [GoVal.intv 7]
    "SELECT $1, ".toList " x".toList (by decide)
  have e₁ : String.mk ("SELECT $1, ".toList ++ '$' :: (natDigits 10 ++ " x".toList))
      = "SELECT $1, $10 x" := by decide
  have e₂ : String.mk (substLoop [GoVal.intv 7] 1 "SELECT $1, ".toList
        ++ '$' :: (natDigits 10 ++ substLoop [GoVal.intv 7] 1 " x".toList))
      = "SELECT 7, $10 x" := by decide
  rw [e₁, e₂] at h
  exact h
